import Mathlib

/-!
Shallow embedding of the batched, cached, rate-limited extraction pipeline of
the `doc_parser` repository (PDF parser core), together with proofs about it.

Python strings are modelled as Lean `String` (with `String.data` giving the
character sequence) and Python `dict`s as association lists.  Fallible
operations (`CacheError`-raising cache reads/writes) are modelled in the
`Except` monad.  Numeric quantities (page counts, batch sizes, timestamps in
seconds) are `Nat`.
-/

deriving instance DecidableEq for Except

namespace DocParser

/-! ### Result assembler: `PDFParser._combine_results` -/

/-- Models Python's `not line.strip()`: a line is blank iff every character is
whitespace (so `str.strip()` returns the empty, falsy string). -/
def is_blank (line : List Char) : Bool :=
  line.all (fun c => c.isWhitespace)

/-- Models Python's `s.split("\n")`: split a character sequence at every
newline, keeping empty pieces (`"".split("\n") == [""]`). -/
def splitNl : List Char → List (List Char)
  | [] => [[]]
  | c :: rest =>
    if c = '\n' then [] :: splitNl rest
    else
      match splitNl rest with
      | l :: ls => (c :: l) :: ls
      | [] => [[c]]

/-- Models Python's `sep.join(pieces)`. -/
def joinSep (sep : List Char) : List (List Char) → List Char
  | [] => []
  | [l] => l
  | l :: l' :: ls => l ++ sep ++ joinSep sep (l' :: ls)

/-- The cleaning loop of `PDFParser._combine_results`: a blank line is skipped
when `cleaned_lines` is still empty or its last kept line is blank.  The
boolean argument carries exactly that condition (`True` initially, since an
empty `cleaned_lines` behaves like a trailing blank line). -/
def clean_lines (prevBlank : Bool) : List (List Char) → List (List Char)
  | [] => []
  | line :: rest =>
    if is_blank line && prevBlank then clean_lines prevBlank rest
    else line :: clean_lines (is_blank line) rest

/-- The `cleaned_lines` list computed by `PDFParser._combine_results`:
join the page results with `"\n\n"`, split into lines, drop duplicate
blank lines. -/
def combined_lines (results : List String) : List (List Char) :=
  clean_lines true (splitNl (joinSep ['\n', '\n'] (results.map String.data)))

/-- `PDFParser._combine_results`: join page extraction results with double
newlines and remove duplicate blank lines. -/
def combine_results (results : List String) : String :=
  ⟨joinSep ['\n'] (combined_lines results)⟩

/-- `true` iff no two adjacent lines of the list are both blank. -/
def no_double_blank : List (List Char) → Bool
  | [] => true
  | [_] => true
  | a :: b :: rest => (!(is_blank a && is_blank b)) && no_double_blank (b :: rest)

/-- `true` iff the list is empty or its first line is not blank. -/
def head_not_blank : List (List Char) → Bool
  | [] => true
  | h :: _ => !is_blank h

/-! ### Unit partitioner: the batching loop of `PDFParser._process_pages`

The source loop is

    for i in range(0, len(images), self.batch_size):
        batch = images[i : i + self.batch_size]
        page_nums = list(range(i + 1, i + len(batch) + 1))
        batches.append((batch, page_nums))

`create_batches_go` carries a fuel argument (initialised to the list length,
always sufficient) purely so that the definition is structurally recursive and
hence computable by the kernel; `o` is the running start position `i`.
A step of `0` (batch_size 0) would raise `ValueError` in Python's `range`;
it is modelled as producing no batches and excluded by the `1 ≤ B`
hypotheses of the theorems. -/
def create_batches_go {Img : Type} (B : Nat) : Nat → Nat → List Img → List (List Img × List Nat)
  | 0, _, _ => []
  | _, _, [] => []
  | fuel + 1, o, x :: xs =>
    match B with
    | 0 => []
    | _ + 1 =>
      let chunk := (x :: xs).take B
      (chunk, List.range' (o + 1) chunk.length) ::
        create_batches_go B fuel (o + chunk.length) ((x :: xs).drop B)

/-- The batch list built by `PDFParser._process_pages` for a list of page
images: each batch is a pair `(batch_images, page_nums)`. -/
def create_batches {Img : Type} (B : Nat) (o : Nat) (images : List Img) :
    List (List Img × List Nat) :=
  create_batches_go B images.length o images

/-! ### Cache keys and the rasterizer

`cache_key` is the f-string `f"{pdf_path.stem}_page_{page_num}"` used by both
`PDFParser._get_cached_pages` and `PDFParser._process_uncached_pages`. -/

/-- The cache key `f"{pdf_path.stem}_page_{page_num}"`. -/
def cache_key (stem : String) (page_num : Nat) : String :=
  stem ++ "_page_" ++ Nat.repr page_num

/-- Modelled from the spec: the external Page rasterizer (`pdf2image`'s
`convert_from_path`, invoked by `PDFParser._pdf_to_images`) is a black box
"converting a source document + page range into an ordered sequence of page
images"; with `first_page = a`, `last_page = b` it returns the images of
document pages `a..b` (1-based, inclusive), otherwise those of all
`num_pages` pages.  Each image is identified here by its document page
number. -/
def pdf_to_images (num_pages : Nat) : Option (Nat × Nat) → List Nat
  | none => List.range' 1 num_pages
  | some (a, b) => List.range' a (b + 1 - a)

/-- The sequence of cache keys a run uses for the units of `images`, in unit
order: unit `j` gets page number `j + 1` (from the `page_nums` lists built by
`PDFParser._process_pages`) and hence key `cache_key stem (j + 1)`. -/
def run_keys {Img : Type} (stem : String) (B : Nat) (images : List Img) : List String :=
  (((create_batches B 0 images).map (·.2)).flatten).map (cache_key stem)

/-! ### Cache-aware dispatcher: `PDFParser._process_batch` and helpers

The cache entry payload is the dict `{"content": content, "page": page_num}`
written by `PDFParser._process_uncached_pages`.  `cache_get` either returns
such a payload, returns `None` (modelled `Option`), or raises `CacheError`
(modelled `Except CacheErr`); `cache_set` either succeeds or raises.  The
extraction service (`VisionExtractor.extract`) is an external collaborator,
passed in as one function for single-image calls and one for batch calls. -/

/-- A `CacheError` message. -/
abbrev CacheErr := String

/-- The cache entry payload `{"content": ..., "page": ...}`. -/
structure Payload where
  content : String
  page : Nat
  deriving DecidableEq

/-- `PDFParser._get_cached_pages`: walk the zipped `(image, page_num)` list
with running enumeration index `i`, look each unit's key up in the cache, and
partition units into `(index, cached_content)` hits and
`(index, image, page_num)` pending misses.  A `CacheError` raised by
`cache_get` is not caught and so propagates. -/
def get_cached_pages {Img : Type} (getC : String → Except CacheErr (Option Payload))
    (stem : String) : List (Img × Nat) → Nat →
    Except CacheErr (List (Nat × String) × List (Nat × Img × Nat))
  | [], _ => .ok ([], [])
  | (image, page_num) :: rest, i =>
    match getC (cache_key stem page_num) with
    | .error e => .error e
    | .ok cached =>
      match get_cached_pages getC stem rest (i + 1) with
      | .error e => .error e
      | .ok (cs, ps) =>
        match cached with
        | some payload => .ok ((i, payload.content) :: cs, ps)
        | none => .ok (cs, (i, image, page_num) :: ps)

/-- The cache-write loop of the batch branch of
`PDFParser._process_uncached_pages`: one `cache_set` per pending unit, keyed
by the unit's own page number and carrying its own `page` value, all with the
same `content`.  Returns the performed writes in order; a raising `cache_set`
propagates. -/
def write_all {Img : Type} (setC : String → Payload → Except CacheErr Unit)
    (stem : String) (content : String) :
    List (Nat × Img × Nat) → Except CacheErr (List (String × Payload))
  | [] => .ok []
  | (_, _, page_num) :: rest =>
    match setC (cache_key stem page_num) ⟨content, page_num⟩ with
    | .error e => .error e
    | .ok _ =>
      match write_all setC stem content rest with
      | .error e => .error e
      | .ok ws => .ok ((cache_key stem page_num, Payload.mk content page_num) :: ws)

/-- `PDFParser._process_uncached_pages`: no pending unit yields no result; a
single pending unit is extracted in single mode and cached; two or more
pending units are extracted in one batch-mode call whose combined string is
cached for every pending unit, and a single result pair carrying the first
pending index is returned.  Alongside the `(index, content)` results, the
list of performed cache writes is returned. -/
def process_uncached_pages {Img : Type} (setC : String → Payload → Except CacheErr Unit)
    (extract_one : Img → String) (extract_many : List Img → String) (stem : String) :
    List (Nat × Img × Nat) →
    Except CacheErr (List (Nat × String) × List (String × Payload))
  | [] => .ok ([], [])
  | [(idx, image, page_num)] =>
    let content := extract_one image
    match setC (cache_key stem page_num) ⟨content, page_num⟩ with
    | .error e => .error e
    | .ok _ => .ok ([(idx, content)], [(cache_key stem page_num, Payload.mk content page_num)])
  | p0 :: p1 :: rest =>
    let pending := p0 :: p1 :: rest
    let content := extract_many (pending.map (fun t => t.2.1))
    match write_all setC stem content pending with
    | .error e => .error e
    | .ok ws => .ok ([(p0.1, content)], ws)

/-- `PDFParser._process_batch` (inside the rate-limiter context): split the
batch into cached hits and pending misses, extract the misses, concatenate
and sort all `(index, content)` results by index.  Python's stable
`list.sort` is modelled by insertion sort; the indices occurring are
pairwise distinct, so any sort agrees. -/
def process_batch_pairs {Img : Type} (getC : String → Except CacheErr (Option Payload))
    (setC : String → Payload → Except CacheErr Unit)
    (extract_one : Img → String) (extract_many : List Img → String) (stem : String)
    (images : List Img) (page_nums : List Nat) :
    Except CacheErr (List (Nat × String)) :=
  match get_cached_pages getC stem (images.zip page_nums) 0 with
  | .error e => .error e
  | .ok (cached, pending) =>
    match process_uncached_pages setC extract_one extract_many stem pending with
    | .error e => .error e
    | .ok (new_results, _) =>
      .ok (List.insertionSort (fun a b => a.1 ≤ b.1) (cached ++ new_results))

/-- `PDFParser._process_batch`'s return value: only the extracted contents,
in sorted order. -/
def process_batch {Img : Type} (getC : String → Except CacheErr (Option Payload))
    (setC : String → Payload → Except CacheErr Unit)
    (extract_one : Img → String) (extract_many : List Img → String) (stem : String)
    (images : List Img) (page_nums : List Nat) : Except CacheErr (List String) :=
  match process_batch_pairs getC setC extract_one extract_many stem images page_nums with
  | .error e => .error e
  | .ok pairs => .ok (pairs.map (·.2))

/-- Number of cache misses (pending units) a batch produces in
`PDFParser._get_cached_pages`. -/
def miss_count {Img : Type} (getC : String → Except CacheErr (Option Payload))
    (stem : String) (images : List Img) (page_nums : List Nat) : Nat :=
  match get_cached_pages getC stem (images.zip page_nums) 0 with
  | .ok (_, p) => p.length
  | .error _ => 0

/-- The pre-assembly `(index, content)` results of `PDFParser._process_pages`:
process each batch (`images[o : o + B]` with page numbers `o+1 ..`), and
offset each batch-local enumeration index by the batch's start position `o`,
which reconstructs the unit's zero-based document position (the batch-local
index `i` of `enumerate` in `_get_cached_pages` enumerates
`images[o : o + B]`, so `o + i` is the position in `images`).  Batches are
gathered and their result lists concatenated in batch order.  As in
`create_batches_go`, the fuel argument (initialised to the list length) only
makes the recursion structural. -/
def process_pages_go {Img : Type} (getC : String → Except CacheErr (Option Payload))
    (setC : String → Payload → Except CacheErr Unit)
    (extract_one : Img → String) (extract_many : List Img → String) (stem : String)
    (B : Nat) : Nat → Nat → List Img → Except CacheErr (List (Nat × String))
  | 0, _, _ => .ok []
  | _, _, [] => .ok []
  | fuel + 1, o, x :: xs =>
    match B with
    | 0 => .ok []
    | _ + 1 =>
      let chunk := (x :: xs).take B
      match process_batch_pairs getC setC extract_one extract_many stem chunk
          (List.range' (o + 1) chunk.length) with
      | .error e => .error e
      | .ok pairs =>
        match process_pages_go getC setC extract_one extract_many stem B fuel
            (o + chunk.length) ((x :: xs).drop B) with
        | .error e => .error e
        | .ok rest => .ok (pairs.map (fun ic => (o + ic.1, ic.2)) ++ rest)

/-- The pre-assembly result pairs of a whole run of
`PDFParser._process_pages`. -/
def process_pages_pairs {Img : Type} (getC : String → Except CacheErr (Option Payload))
    (setC : String → Payload → Except CacheErr Unit)
    (extract_one : Img → String) (extract_many : List Img → String) (stem : String)
    (B : Nat) (images : List Img) : Except CacheErr (List (Nat × String)) :=
  process_pages_go getC setC extract_one extract_many stem B images.length 0 images

/-- `PDFParser._process_pages`: the flattened list of extracted contents
handed to `_combine_results`. -/
def process_pages {Img : Type} (getC : String → Except CacheErr (Option Payload))
    (setC : String → Payload → Except CacheErr Unit)
    (extract_one : Img → String) (extract_many : List Img → String) (stem : String)
    (B : Nat) (images : List Img) : Except CacheErr (List String) :=
  match process_pages_pairs getC setC extract_one extract_many stem B images with
  | .error e => .error e
  | .ok prs => .ok (prs.map (·.2))

/-! ### Content cache: `CacheManager.get` / `set` / `delete` (`utils/cache.py`)

The cache directory is modelled as two association lists: the `{key}.json`
data files and the `{key}.meta.json` metadata files holding the creation
timestamp (`datetime.now().isoformat()`, modelled as `Nat` seconds).  The TTL
(`timedelta`) is `Option Nat` seconds; Python's `if self.ttl:` is truthy only
for a non-`None`, non-zero `timedelta`, hence the `0 < d` guard. -/

/-- The on-disk state of one `CacheManager` cache directory: payload files
and metadata (creation-time) files. -/
structure CMState (V : Type) where
  entries : List (String × V)
  metas : List (String × Nat)
  deriving DecidableEq

/-- `CacheManager.delete`: unlink the data file and the metadata file. -/
def cm_delete {V : Type} (st : CMState V) (key : String) : CMState V :=
  ⟨st.entries.filter (fun p => p.1 ≠ key), st.metas.filter (fun p => p.1 ≠ key)⟩

/-- `CacheManager.set` at time `now`: overwrite the data file with the
payload and the metadata file with `{"created": now, "key": key}`. -/
def cm_set {V : Type} (st : CMState V) (now : Nat) (key : String) (v : V) : CMState V :=
  ⟨(key, v) :: st.entries.filter (fun p => p.1 ≠ key),
   (key, now) :: st.metas.filter (fun p => p.1 ≠ key)⟩

/-- `CacheManager.get` at time `now`: absent data file gives `None`; when a
(truthy) TTL is configured and a metadata file exists, an entry whose age
strictly exceeds the TTL is deleted and `None` returned; otherwise the stored
payload is returned.  Returns the result together with the (possibly
updated) cache state. -/
def cm_get {V : Type} (ttl : Option Nat) (now : Nat) (st : CMState V) (key : String) :
    Option V × CMState V :=
  match st.entries.lookup key with
  | none => (none, st)
  | some v =>
    match ttl, st.metas.lookup key with
    | some d, some created =>
      if 0 < d ∧ d < now - created then (none, cm_delete st key)
      else (some v, st)
    | _, _ => (some v, st)

/-! ### Pipeline output metadata: `PDFParser._parse` -/

/-- A metadata dictionary value (string or integer). -/
inductive MetaVal where
  | str : String → MetaVal
  | num : Nat → MetaVal
  deriving DecidableEq

/-- `BaseParser.get_metadata`: basic file metadata. -/
def get_metadata (filename : String) (size : Nat) (modified : String)
    (parser : String) : List (String × MetaVal) :=
  [("filename", .str filename), ("size", .num size),
   ("modified", .str modified), ("parser", .str parser)]

/-- The metadata dict returned by `PDFParser._parse`:
`get_metadata(input_path)` updated with
`{"pages": len(images), "dpi": self.dpi, "model": self.settings.model_name}`
(the key sets are disjoint, so `dict.update` is list concatenation). -/
def pdf_parse_metadata (filename : String) (size : Nat) (modified : String)
    (pages dpi : Nat) (model : String) : List (String × MetaVal) :=
  get_metadata filename size modified "PDFParser" ++
    [("pages", .num pages), ("dpi", .num dpi), ("model", .str model)]

/-! ### Concurrency limiter: `RateLimiter` / `AsyncBatcher.__aenter__/__aexit__`

The limiter wraps `asyncio.Semaphore(max_concurrent)`; each batch body of
`PDFParser._process_batch` runs inside `async with self.rate_limiter`, whose
`__aexit__` releases the permit on normal completion and when the body
raises.  This is modelled as a labelled transition system over the shared
state `(semaphore value, per-task statuses)`: a pending task may acquire only
when the semaphore value is positive, and both exit transitions (normal and
raising) release the permit — mirroring the `try/finally` expansion of
`async with`.  Since the event loop interleaves task steps arbitrarily, any
reachable interleaving is a path of this relation. -/

/-- Status of one batch task with respect to the rate limiter. -/
inductive TStat where
  | waiting
  | running
  | doneOk
  | doneErr
  deriving DecidableEq

/-- Number of tasks currently inside the limiter-guarded region. -/
def count_running (tasks : List TStat) : Nat :=
  tasks.countP (fun t => t == TStat.running)

/-- One scheduler step: acquiring a permit (only possible while the semaphore
value is positive), or finishing the guarded body — normally or with an
exception — which releases the permit either way. -/
inductive LimStep : Nat × List TStat → Nat × List TStat → Prop where
  | acquire (n : Nat) (l r : List TStat) :
      LimStep (n + 1, l ++ TStat.waiting :: r) (n, l ++ TStat.running :: r)
  | finishOk (n : Nat) (l r : List TStat) :
      LimStep (n, l ++ TStat.running :: r) (n + 1, l ++ TStat.doneOk :: r)
  | finishErr (n : Nat) (l r : List TStat) :
      LimStep (n, l ++ TStat.running :: r) (n + 1, l ++ TStat.doneErr :: r)

/-! ### `BaseParser.parse`: temporary `output_format` override

`parse` saves `settings.output_format`, optionally overrides it, runs the
body of the `try:` block (cache lookup, `_parse`, post-processing, cache
write — none of which assigns any settings field), and restores the saved
value in the `finally:` block, i.e. both when the body returns and when it
raises. -/

/-- The fields of the `Settings`/`AppConfig` object that `parse` can see
(`output_format` plus a representative sample of the remaining fields). -/
structure PySettings where
  output_format : String
  use_cache : Bool
  post_prompt : Option String
  model_name : String
  batch_size : Nat
  max_workers : Nat
  deriving DecidableEq

/-- `BaseParser.parse`, with the `try:` body abstracted as a fallible
function of the (possibly overridden) settings.  Returns the body's outcome
together with the settings object as it stands after the `finally:` block. -/
def base_parser_parse {E R : Type} (s : PySettings) (output_format : Option String)
    (body : PySettings → Except E R) : Except E R × PySettings :=
  let original_format := s.output_format
  let s1 := match output_format with
    | some f => { s with output_format := f }
    | none => s
  match body s1 with
  | .ok r => (.ok r, { s1 with output_format := original_format })
  | .error e => (.error e, { s1 with output_format := original_format })

/-! ## Helper lemmas -/

/-- Looking a key up after filtering out all of its bindings yields nothing. -/
theorem lookup_filter_ne {α : Type} (k : String) (l : List (String × α)) :
    (l.filter (fun p => p.1 ≠ k)).lookup k = none := by
  induction l with
  | nil => rfl
  | cons p l ih =>
    obtain ⟨a, b⟩ := p
    by_cases h : a = k
    · simpa [List.filter_cons, h] using ih
    · have hk : (k == a) = false := by
        simp only [beq_eq_false_iff_ne]
        exact fun hh => h hh.symm
      simpa [List.filter_cons, h, List.lookup, hk] using ih

/-- No task is `running` in the all-`waiting` initial state. -/
theorem count_running_replicate_waiting (n : Nat) :
    count_running (List.replicate n TStat.waiting) = 0 := by
  rw [count_running, List.countP_eq_zero]
  intro a ha
  rw [List.eq_of_mem_replicate ha]
  decide

/-- The semaphore accounting `value + running = K` is preserved by every
scheduler step, in particular by both exit transitions (normal and
raising), which each give the permit back. -/
theorem limiter_invariant (K : Nat) (s s' : Nat × List TStat)
    (h : Relation.ReflTransGen LimStep s s') (h0 : s.1 + count_running s.2 = K) :
    s'.1 + count_running s'.2 = K := by
  induction h with
  | refl => exact h0
  | tail h1 step ih =>
    cases step <;>
      simp only [count_running, List.countP_append, List.countP_cons] at ih ⊢ <;>
      simp at ih ⊢ <;> omega

/-- The cleaning loop never keeps two adjacent blank lines, and (when the
"previous line blank" flag is set) never starts its output with a blank
line. -/
theorem clean_lines_spec (ls : List (List Char)) : ∀ pb : Bool,
    (pb = true → head_not_blank (clean_lines pb ls) = true) ∧
    no_double_blank (clean_lines pb ls) = true := by
  induction ls with
  | nil => exact fun pb => ⟨fun _ => rfl, rfl⟩
  | cons l rest ih =>
    intro pb
    by_cases hb : (is_blank l && pb) = true
    · have hcl : clean_lines pb (l :: rest) = clean_lines pb rest := by
        simp [clean_lines, hb]
      have hpb : pb = true := (Bool.and_eq_true _ _ |>.mp hb).2
      rw [hcl, hpb]
      exact ⟨fun _ => ((ih true).1 rfl), (ih true).2⟩
    · have hcl : clean_lines pb (l :: rest) = l :: clean_lines (is_blank l) rest := by
        simp [clean_lines, hb]
      constructor
      · intro hpb
        have hbl : is_blank l = false := by
          cases hval : is_blank l
          · rfl
          · exact absurd (by rw [hval, hpb]; rfl) hb
        rw [hcl, head_not_blank, hbl]
        rfl
      · rw [hcl]
        cases hcl2 : clean_lines (is_blank l) rest with
        | nil => rfl
        | cons h t =>
          rw [no_double_blank, Bool.and_eq_true]
          refine ⟨?_, by rw [← hcl2]; exact (ih (is_blank l)).2⟩
          cases hbl : is_blank l
          · rfl
          · have := (ih (is_blank l)).1 (by rw [hbl])
            rw [hcl2, head_not_blank] at this
            rw [Bool.not_eq_true'] at this ⊢
            rw [Bool.and_eq_false_iff]
            exact Or.inr this

/-- On a line list with no duplicate blank lines (and, when the flag is set,
no leading blank line), the cleaning loop is the identity. -/
theorem clean_lines_id (ls : List (List Char)) : ∀ pb : Bool,
    no_double_blank ls = true → (pb = true → head_not_blank ls = true) →
    clean_lines pb ls = ls := by
  induction ls with
  | nil => intros; rfl
  | cons l rest ih =>
    intro pb hnd hh
    have hb : (is_blank l && pb) = false := by
      cases hpb : pb
      · rw [Bool.and_false]
      · have hnb := hh hpb
        rw [head_not_blank, Bool.not_eq_true'] at hnb
        rw [hnb, Bool.false_and]
    have hcl : clean_lines pb (l :: rest) = l :: clean_lines (is_blank l) rest := by
      simp [clean_lines, hb]
    rw [hcl]
    congr 1
    cases rest with
    | nil => rfl
    | cons h t =>
      rw [no_double_blank, Bool.and_eq_true] at hnd
      refine ih (is_blank l) hnd.2 (fun hbl => ?_)
      rw [head_not_blank, Bool.not_eq_true']
      have := hnd.1
      rw [hbl, Bool.true_and, Bool.not_eq_true'] at this
      exact this

/-- Splitting at newlines never yields the empty list of pieces. -/
theorem splitNl_ne_nil (cs : List Char) : splitNl cs ≠ [] := by
  cases cs with
  | nil => exact fun h => List.noConfusion h
  | cons c rest =>
    rw [splitNl]
    by_cases h : c = '\n'
    · rw [if_pos h]; exact fun h => List.noConfusion h
    · rw [if_neg h]
      cases splitNl rest
      · exact fun h => List.noConfusion h
      · exact fun h => List.noConfusion h

/-- Joining the newline-split pieces with newlines restores the original
character sequence. -/
theorem joinSep_splitNl (cs : List Char) : joinSep ['\n'] (splitNl cs) = cs := by
  induction cs with
  | nil => rfl
  | cons c rest ih =>
    rw [splitNl]
    by_cases h : c = '\n'
    · rw [if_pos h]
      cases hs : splitNl rest with
      | nil => exact absurd hs (splitNl_ne_nil rest)
      | cons l ls =>
        rw [joinSep, ← hs, ih, h]
        rfl
    · rw [if_neg h]
      cases hs : splitNl rest with
      | nil => exact absurd hs (splitNl_ne_nil rest)
      | cons l ls =>
        rw [hs] at ih
        cases ls with
        | nil =>
          rw [joinSep] at ih ⊢
          rw [ih]
        | cons l2 ls2 =>
          rw [joinSep] at ih ⊢
          simp only [List.cons_append, List.append_assoc] at ih ⊢
          rw [ih]

/-- Unfolding `create_batches_go` on an empty list. -/
theorem create_batches_go_nil {Img : Type} (B fuel o : Nat) :
    create_batches_go B fuel o ([] : List Img) = [] := by
  cases fuel <;> rfl

/-- Unfolding `create_batches_go` on a nonempty list with fuel to spare. -/
theorem create_batches_go_cons {Img : Type} (B fuel o : Nat) (x : Img) (xs : List Img) :
    create_batches_go (B + 1) (fuel + 1) o (x :: xs)
      = ((x :: xs).take (B + 1), List.range' (o + 1) ((x :: xs).take (B + 1)).length)
        :: create_batches_go (B + 1) fuel (o + ((x :: xs).take (B + 1)).length)
            ((x :: xs).drop (B + 1)) := rfl

/-- The batching loop never produces an empty batch list from a nonempty
image list. -/
theorem create_batches_go_ne_nil {Img : Type} (B fuel o : Nat) (x : Img) (xs : List Img)
    (h : (x :: xs).length ≤ fuel) : create_batches_go (B + 1) fuel o (x :: xs) ≠ [] := by
  cases fuel with
  | zero => simp at h
  | succ fuel =>
    rw [create_batches_go_cons]
    exact fun hc => List.noConfusion hc

/-- Concatenating the images of all batches, in order, restores the image
list. -/
theorem create_batches_go_flatten_fst {Img : Type} (B : Nat) :
    ∀ (fuel : Nat) (l : List Img) (o : Nat), l.length ≤ fuel →
      ((create_batches_go (B + 1) fuel o l).map (·.1)).flatten = l := by
  intro fuel
  induction fuel with
  | zero =>
    intro l o h
    have hl : l = [] := List.eq_nil_of_length_eq_zero (Nat.le_zero.mp h)
    subst hl
    rfl
  | succ fuel ih =>
    intro l o h
    cases l with
    | nil => rfl
    | cons x xs =>
      rw [create_batches_go_cons, List.map_cons, List.flatten_cons,
        ih ((x :: xs).drop (B + 1)) _ (by simp at h ⊢; omega)]
      exact List.take_append_drop _ _

/-- Concatenating the page-number lists of all batches, in order, yields the
1-based page numbers `o+1 .. o+len` of the (suffix of the) image list the
loop was started on. -/
theorem create_batches_go_flatten_snd {Img : Type} (B : Nat) :
    ∀ (fuel : Nat) (l : List Img) (o : Nat), l.length ≤ fuel →
      ((create_batches_go (B + 1) fuel o l).map (·.2)).flatten
        = List.range' (o + 1) l.length := by
  intro fuel
  induction fuel with
  | zero =>
    intro l o h
    have hl : l = [] := List.eq_nil_of_length_eq_zero (Nat.le_zero.mp h)
    subst hl
    rfl
  | succ fuel ih =>
    intro l o h
    cases l with
    | nil => rfl
    | cons x xs =>
      rw [create_batches_go_cons, List.map_cons, List.flatten_cons,
        ih ((x :: xs).drop (B + 1)) _ (by simp at h ⊢; omega)]
      have e1 : o + ((x :: xs).take (B + 1)).length + 1
          = (o + 1) + 1 * ((x :: xs).take (B + 1)).length := by
        omega
      rw [e1, List.range'_append]
      congr 1
      simp only [List.length_take, List.length_drop, List.length_cons]
      omega

/-- Arithmetic step for the batch count: chopping `B + 1` units off the
front decreases the ceiling `⌈len / (B+1)⌉` by one. -/
theorem ceil_div_succ_step (len B : Nat) (h : 1 ≤ len) :
    (len + (B + 1) - 1) / (B + 1) = ((len - (B + 1)) + (B + 1) - 1) / (B + 1) + 1 := by
  by_cases hc : len ≤ B + 1
  · have e1 : len + (B + 1) - 1 = (len - 1) + (B + 1) := by omega
    have e3 : len - (B + 1) = 0 := by omega
    rw [e1, Nat.add_div_right _ (Nat.succ_pos B), e3,
      Nat.div_eq_of_lt (show len - 1 < B + 1 by omega),
      Nat.div_eq_of_lt (show 0 + (B + 1) - 1 < B + 1 by omega)]
  · have e1 : len + (B + 1) - 1 = ((len - 1 - (B + 1)) + (B + 1)) + (B + 1) := by omega
    have e2 : (len - (B + 1)) + (B + 1) - 1 = (len - 1 - (B + 1)) + (B + 1) := by omega
    rw [e1, e2, Nat.add_div_right _ (Nat.succ_pos B), Nat.add_div_right _ (Nat.succ_pos B)]

/-- The batching loop produces `ceil(len / B)` batches. -/
theorem create_batches_go_length {Img : Type} (B : Nat) :
    ∀ (fuel : Nat) (l : List Img) (o : Nat), l.length ≤ fuel →
      (create_batches_go (B + 1) fuel o l).length
        = (l.length + (B + 1) - 1) / (B + 1) := by
  intro fuel
  induction fuel with
  | zero =>
    intro l o h
    have hl : l = [] := List.eq_nil_of_length_eq_zero (Nat.le_zero.mp h)
    subst hl
    rw [create_batches_go_nil]
    simp only [List.length_nil]
    rw [Nat.div_eq_of_lt (show 0 + (B + 1) - 1 < B + 1 by omega)]
  | succ fuel ih =>
    intro l o h
    cases l with
    | nil =>
      rw [create_batches_go_nil]
      simp only [List.length_nil]
      rw [Nat.div_eq_of_lt (show 0 + (B + 1) - 1 < B + 1 by omega)]
    | cons x xs =>
      rw [create_batches_go_cons, List.length_cons,
        ih ((x :: xs).drop (B + 1)) _ (by simp at h ⊢; omega)]
      rw [List.length_drop]
      exact (ceil_div_succ_step (x :: xs).length B (by simp)).symm

/-- Every batch is at most `B` units, and carries one page number per
image. -/
theorem create_batches_go_sizes {Img : Type} (B : Nat) :
    ∀ (fuel : Nat) (l : List Img) (o : Nat), l.length ≤ fuel →
      ∀ bp ∈ create_batches_go (B + 1) fuel o l,
        bp.1.length ≤ B + 1 ∧ bp.2.length = bp.1.length := by
  intro fuel
  induction fuel with
  | zero =>
    intro l o h
    have hl : l = [] := List.eq_nil_of_length_eq_zero (Nat.le_zero.mp h)
    subst hl
    intro bp hbp
    rw [create_batches_go_nil] at hbp
    exact absurd hbp (List.not_mem_nil bp)
  | succ fuel ih =>
    intro l o h
    cases l with
    | nil =>
      intro bp hbp
      rw [create_batches_go_nil] at hbp
      exact absurd hbp (List.not_mem_nil bp)
    | cons x xs =>
      rw [create_batches_go_cons]
      intro bp hbp
      rcases List.mem_cons.mp hbp with hhd | htl
      · subst hhd
        refine ⟨?_, List.length_range' _ _ _⟩
        simp [List.length_take]
      · exact ih _ _ (by simp at h ⊢; omega) bp htl

/-- Every batch except possibly the last is exactly `B` units. -/
theorem create_batches_go_dropLast {Img : Type} (B : Nat) :
    ∀ (fuel : Nat) (l : List Img) (o : Nat), l.length ≤ fuel →
      ∀ bp ∈ (create_batches_go (B + 1) fuel o l).dropLast, bp.1.length = B + 1 := by
  intro fuel
  induction fuel with
  | zero =>
    intro l o h
    have hl : l = [] := List.eq_nil_of_length_eq_zero (Nat.le_zero.mp h)
    subst hl
    intro bp hbp
    rw [create_batches_go_nil] at hbp
    exact absurd hbp (by simp)
  | succ fuel ih =>
    intro l o h
    cases l with
    | nil =>
      intro bp hbp
      rw [create_batches_go_nil] at hbp
      exact absurd hbp (by simp)
    | cons x xs =>
      rw [create_batches_go_cons]
      intro bp hbp
      cases hdrop : (x :: xs).drop (B + 1) with
      | nil =>
        rw [hdrop, create_batches_go_nil] at hbp
        exact absurd hbp (by simp)
      | cons y ys =>
        have hcong := congrArg List.length hdrop
        rw [List.length_drop] at hcong
        simp only [List.length_cons] at hcong h
        have hlen : B + 1 < (x :: xs).length := by
          simp only [List.length_cons]
          omega
        have hfy : (y :: ys).length ≤ fuel := by
          simp only [List.length_cons]
          omega
        have hfd : ((x :: xs).drop (B + 1)).length ≤ fuel := by
          rw [hdrop]
          exact hfy
        have hrest : create_batches_go (B + 1) fuel
            (o + ((x :: xs).take (B + 1)).length) ((x :: xs).drop (B + 1)) ≠ [] := by
          rw [hdrop]
          exact create_batches_go_ne_nil B fuel _ y ys hfy
        rcases hgo : create_batches_go (B + 1) fuel
            (o + ((x :: xs).take (B + 1)).length) ((x :: xs).drop (B + 1)) with _ | ⟨r, rs⟩
        · exact absurd hgo hrest
        · rw [hgo, List.dropLast_cons₂] at hbp
          rcases List.mem_cons.mp hbp with hhd | htl
          · subst hhd
            simp only [List.length_take]
            simp only [List.length_cons] at hlen ⊢
            omega
          · exact ih ((x :: xs).drop (B + 1)) (o + ((x :: xs).take (B + 1)).length)
              hfd bp (by rw [hgo]; exact htl)

/-- When every `cache_set` succeeds, the batch-branch write loop performs
exactly one write per pending unit, in order: each keyed by the unit's own
page number and carrying the shared content and its own `page` value. -/
theorem write_all_ok {Img : Type} (setC : String → Payload → Except CacheErr Unit)
    (hset : ∀ k v, setC k v = .ok ()) (stem content : String)
    (pending : List (Nat × Img × Nat)) :
    write_all setC stem content pending
      = .ok (pending.map (fun t => (cache_key stem t.2.2, Payload.mk content t.2.2))) := by
  induction pending with
  | nil => rfl
  | cons p rest ih =>
    obtain ⟨i, im, pn⟩ := p
    simp [write_all, hset, ih]

/-- A successful extraction pass over at most one pending unit returns
exactly one `(index, content)` result per pending unit. -/
theorem process_uncached_small {Img : Type} (setC : String → Payload → Except CacheErr Unit)
    (extract_one : Img → String) (extract_many : List Img → String) (stem : String) :
    ∀ (pending : List (Nat × Img × Nat)) (res : List (Nat × String))
      (ws : List (String × Payload)), pending.length ≤ 1 →
      process_uncached_pages setC extract_one extract_many stem pending = .ok (res, ws) →
      res.map (·.1) = pending.map (·.1) := by
  intro pending res ws hlen h
  match pending with
  | [] =>
    simp [process_uncached_pages] at h
    rw [h.1]
    rfl
  | [(i, im, pn)] =>
    rw [process_uncached_pages] at h
    cases hs : setC (cache_key stem pn) (Payload.mk (extract_one im) pn) with
    | error e => rw [hs] at h; exact absurd h (by simp)
    | ok u =>
      rw [hs] at h
      dsimp only at h
      simp only [Except.ok.injEq, Prod.mk.injEq] at h
      rw [← h.1]
      rfl
  | x :: y :: rest => simp at hlen

/-- The hit/miss partition of `PDFParser._get_cached_pages` assigns each of
the enumeration indices `i, i+1, ...` to exactly one side: together, the
indices of the cached results and of the pending units are a permutation of
`range' i len`. -/
theorem get_cached_indices_perm {Img : Type}
    (getC : String → Except CacheErr (Option Payload)) (stem : String) :
    ∀ (zs : List (Img × Nat)) (i : Nat) (cs : List (Nat × String))
      (ps : List (Nat × Img × Nat)),
      get_cached_pages getC stem zs i = .ok (cs, ps) →
      (cs.map Prod.fst ++ ps.map (·.1)).Perm (List.range' i zs.length) := by
  intro zs
  induction zs with
  | nil =>
    intro i cs ps h
    simp [get_cached_pages] at h
    rw [h.1, h.2]
    rfl
  | cons z rest ih =>
    obtain ⟨im, pn⟩ := z
    intro i cs ps h
    rw [get_cached_pages] at h
    cases hg : getC (cache_key stem pn) with
    | error e => rw [hg] at h; exact absurd h (by simp)
    | ok ov =>
      rw [hg] at h
      cases hrec : get_cached_pages getC stem rest (i + 1) with
      | error e => rw [hrec] at h; exact absurd h (by simp)
      | ok cp =>
        obtain ⟨cs', ps'⟩ := cp
        rw [hrec] at h
        have hperm := ih (i + 1) cs' ps' hrec
        rw [List.length_cons, List.range'_succ]
        cases ov with
        | some payload =>
          simp at h
          rw [← h.1, ← h.2]
          simp only [List.map_cons, List.cons_append]
          exact hperm.cons i
        | none =>
          simp at h
          rw [← h.1, ← h.2]
          simp only [List.map_cons]
          exact List.perm_middle.trans (hperm.cons i)

/-- A successful `PDFParser._process_batch` on a batch with at most one cache
miss produces the sorted index sequence `0, 1, ..., len-1` — one result per
unit of the batch. -/
theorem batch_pairs_indices {Img : Type}
    (getC : String → Except CacheErr (Option Payload))
    (setC : String → Payload → Except CacheErr Unit)
    (extract_one : Img → String) (extract_many : List Img → String) (stem : String)
    (imgs : List Img) (pns : List Nat) (pairs : List (Nat × String))
    (h : process_batch_pairs getC setC extract_one extract_many stem imgs pns = .ok pairs)
    (hmiss : miss_count getC stem imgs pns ≤ 1) :
    pairs.map Prod.fst = List.range' 0 (imgs.zip pns).length := by
  rw [process_batch_pairs] at h
  cases hgc : get_cached_pages getC stem (imgs.zip pns) 0 with
  | error e => rw [hgc] at h; exact absurd h (by simp)
  | ok cp =>
    obtain ⟨cached, pending⟩ := cp
    rw [hgc] at h
    dsimp only at h
    have hplen : pending.length ≤ 1 := by
      rw [miss_count, hgc] at hmiss
      exact hmiss
    cases hpu : process_uncached_pages setC extract_one extract_many stem pending with
    | error e => rw [hpu] at h; exact absurd h (by simp)
    | ok nw =>
      obtain ⟨new_results, ws⟩ := nw
      rw [hpu] at h
      dsimp only at h
      simp only [Except.ok.injEq] at h
      have hres : new_results.map (·.1) = pending.map (·.1) :=
        process_uncached_small setC extract_one extract_many stem pending
          new_results ws hplen hpu
      have hperm0 := get_cached_indices_perm getC stem (imgs.zip pns) 0 cached pending hgc
      have hperm1 : ((cached ++ new_results).map Prod.fst).Perm
          (List.range' 0 (imgs.zip pns).length) := by
        rw [List.map_append, hres]
        exact hperm0
      have hperm2 : (pairs.map Prod.fst).Perm (List.range' 0 (imgs.zip pns).length) := by
        rw [← h]
        exact ((List.perm_insertionSort (fun a b => a.1 ≤ b.1)
          (cached ++ new_results)).map Prod.fst).trans hperm1
      haveI : IsTotal (Nat × String) (fun a b => a.1 ≤ b.1) :=
        ⟨fun a b => Nat.le_total a.1 b.1⟩
      haveI : IsTrans (Nat × String) (fun a b => a.1 ≤ b.1) :=
        ⟨fun a b c => Nat.le_trans⟩
      have hsorted : List.Sorted (· ≤ ·) (pairs.map Prod.fst) := by
        rw [← h]
        exact List.pairwise_map.mpr
          (List.sorted_insertionSort (fun a b : Nat × String => a.1 ≤ b.1)
            (cached ++ new_results))
      have hsorted' : List.Sorted (· ≤ ·) (List.range' 0 (imgs.zip pns).length) :=
        (List.pairwise_lt_range' 0 _).imp Nat.le_of_lt
      exact List.eq_of_perm_of_sorted hperm2 hsorted hsorted'

/-- Over the whole pipeline: if every batch has at most one cache miss, a
successful run's pre-assembly pairs carry the document positions
`o, o+1, ...` in order, one per page image. -/
theorem process_pages_go_indices {Img : Type}
    (getC : String → Except CacheErr (Option Payload))
    (setC : String → Payload → Except CacheErr Unit)
    (extract_one : Img → String) (extract_many : List Img → String) (stem : String)
    (B' : Nat) :
    ∀ (fuel : Nat) (l : List Img) (o : Nat) (res : List (Nat × String)),
      l.length ≤ fuel →
      process_pages_go getC setC extract_one extract_many stem (B' + 1) fuel o l
        = .ok res →
      (∀ bp ∈ create_batches_go (B' + 1) fuel o l,
        miss_count getC stem bp.1 bp.2 ≤ 1) →
      res.map Prod.fst = List.range' o l.length := by
  intro fuel
  induction fuel with
  | zero =>
    intro l o res hfuel h hmiss
    have hl : l = [] := List.eq_nil_of_length_eq_zero (Nat.le_zero.mp hfuel)
    subst hl
    simp [process_pages_go] at h
    rw [h]
    rfl
  | succ fuel ih =>
    intro l o res hfuel h hmiss
    cases l with
    | nil =>
      simp [process_pages_go] at h
      rw [h]
      rfl
    | cons x xs =>
      rw [process_pages_go] at h
      cases hbp : process_batch_pairs getC setC extract_one extract_many stem
          ((x :: xs).take (B' + 1))
          (List.range' (o + 1) ((x :: xs).take (B' + 1)).length) with
      | error e => rw [hbp] at h; exact absurd h (by simp)
      | ok pairs =>
        rw [hbp] at h
        cases hrest : process_pages_go getC setC extract_one extract_many stem
            (B' + 1) fuel (o + ((x :: xs).take (B' + 1)).length)
            ((x :: xs).drop (B' + 1)) with
        | error e => rw [hrest] at h; exact absurd h (by simp)
        | ok rest =>
          rw [hrest] at h
          simp only [Except.ok.injEq] at h
          have hmiss0 := hmiss
            ((x :: xs).take (B' + 1),
              List.range' (o + 1) ((x :: xs).take (B' + 1)).length)
            (by rw [create_batches_go_cons]; exact List.mem_cons_self _ _)
          have h1 := batch_pairs_indices getC setC extract_one extract_many stem
            _ _ pairs hbp hmiss0
          have hziplen : (((x :: xs).take (B' + 1)).zip
              (List.range' (o + 1) ((x :: xs).take (B' + 1)).length)).length
              = ((x :: xs).take (B' + 1)).length := by
            rw [List.length_zip, List.length_range', Nat.min_self]
          rw [hziplen] at h1
          have h2 := ih ((x :: xs).drop (B' + 1))
            (o + ((x :: xs).take (B' + 1)).length) rest
            (by simp at hfuel ⊢; omega) hrest
            (fun bp hb => by
              refine hmiss bp ?_
              rw [create_batches_go_cons]
              exact List.mem_cons_of_mem _ hb)
          rw [← h, List.map_append, h2]
          have h3 : (pairs.map (fun ic => (o + ic.1, ic.2))).map Prod.fst
              = List.range' o ((x :: xs).take (B' + 1)).length := by
            rw [List.map_map]
            have : (Prod.fst ∘ fun ic : Nat × String => (o + ic.1, ic.2))
                = (fun i => o + i) ∘ Prod.fst := rfl
            rw [this, ← List.map_map, h1, List.map_add_range']
            simp
          rw [h3]
          have e1 : o + ((x :: xs).take (B' + 1)).length
              = o + 1 * ((x :: xs).take (B' + 1)).length := by omega
          rw [e1, List.range'_append]
          congr 1
          simp only [List.length_take, List.length_drop, List.length_cons]
          omega

/-! ## Claims -/

/-- C1 counterexample: two pages, `batch_size = 2`, empty cache — the batch
branch of `PDFParser._process_uncached_pages` returns the single pair
`(0, combined)`, so the pre-assembly result list of this 2-page run contains
no entry with index `1`: index `1 ∈ [0, 2)` appears zero times, refuting
"each index in `[0, P)` appears exactly once". -/
theorem claim_C1_counterexample :
    process_pages_pairs (fun _ => .ok none) (fun _ _ => .ok ()) Nat.repr
        (fun _ => "combined") "doc" 2 [10, 20] = .ok [(0, "combined")] ∧
    ([((0 : Nat), ("combined" : String))].map Prod.fst).countP (fun i => i == 1) = 0 ∧
    (1 : Nat) ∈ List.range 2 :=
  ⟨by decide, by decide, by decide⟩

/-- C1 (amended): provided every batch has at most one cache miss — in
particular with `batch_size = 1`, or on a fully cached run — a run of the
pipeline that completes without cache errors produces exactly one
`(index, content)` result per requested page unit, no duplicates and no
gaps: the pre-assembly index sequence is exactly `[0, P)` in order.  (With
two or more misses in one batch, the batch contributes a single combined
result carrying the first pending index, as the counterexample shows.) -/
theorem claim_C1_completeness {Img : Type}
    (getC : String → Except CacheErr (Option Payload))
    (setC : String → Payload → Except CacheErr Unit)
    (extract_one : Img → String) (extract_many : List Img → String) (stem : String)
    (B : Nat) (hB : 1 ≤ B) (images : List Img) (res : List (Nat × String))
    (hrun : process_pages_pairs getC setC extract_one extract_many stem B images
      = .ok res)
    (hmiss : ∀ bp ∈ create_batches B 0 images, miss_count getC stem bp.1 bp.2 ≤ 1) :
    res.map Prod.fst = List.range images.length := by
  obtain ⟨B', rfl⟩ : ∃ B', B = B' + 1 := ⟨B - 1, by omega⟩
  rw [List.range_eq_range']
  exact process_pages_go_indices getC setC extract_one extract_many stem B'
    images.length images 0 res le_rfl hrun hmiss

/-- C1 witness: two pages with `batch_size = 1` and an empty cache — each
batch has exactly one miss, and the pre-assembly list carries indices 0 and
1 exactly once each. -/
theorem claim_C1_completeness_witness :
    process_pages_pairs (fun _ => .ok none) (fun _ _ => .ok ()) Nat.repr
        (fun _ => "combined") "doc" 1 [10, 20] = .ok [(0, "10"), (1, "20")] ∧
    [((0 : Nat), ("10" : String)), (1, "20")].map Prod.fst = List.range 2 :=
  ⟨by decide,
   claim_C1_completeness (fun _ => .ok none) (fun _ _ => .ok ()) Nat.repr
     (fun _ => "combined") "doc" 1 (by decide) [10, 20] [(0, "10"), (1, "20")]
     (by decide) (by decide)⟩

/-- C2: when two or more units of a batch miss the cache,
`PDFParser._process_uncached_pages` calls the extraction service once in
batch mode on all pending images and writes the single combined string,
unchanged, as the `content` of the cache entry of every pending unit — each
entry keyed with the unit's own page number and carrying its own `page`
value — and returns the one result pair `(first pending index, combined)`. -/
theorem claim_C2_combined_batch_writes {Img : Type}
    (setC : String → Payload → Except CacheErr Unit)
    (extract_one : Img → String) (extract_many : List Img → String) (stem : String)
    (hset : ∀ k v, setC k v = .ok ())
    (p0 p1 : Nat × Img × Nat) (rest : List (Nat × Img × Nat)) :
    process_uncached_pages setC extract_one extract_many stem (p0 :: p1 :: rest)
      = .ok ([(p0.1, extract_many ((p0 :: p1 :: rest).map (fun t => t.2.1)))],
          (p0 :: p1 :: rest).map (fun t =>
            (cache_key stem t.2.2,
             Payload.mk (extract_many ((p0 :: p1 :: rest).map (fun t => t.2.1)))
               t.2.2))) := by
  simp [process_uncached_pages, write_all_ok setC hset]

/-- C2 witness: two pending units, pages 1 and 2 — both cache entries carry
the combined string, each under its own key and page value, and the single
result pair has index 0. -/
theorem claim_C2_combined_batch_writes_witness :
    process_uncached_pages (fun _ _ => .ok ()) Nat.repr (fun _ => "comb") "doc"
      [(0, 10, 1), (1, 20, 2)]
      = .ok ([(0, "comb")],
          [("doc_page_1", ⟨"comb", 1⟩), ("doc_page_2", ⟨"comb", 2⟩)]) :=
  claim_C2_combined_batch_writes (fun _ _ => .ok ()) Nat.repr (fun _ => "comb")
    "doc" (fun _ _ => rfl) (0, 10, 1) (1, 20, 2) []

/-- C3 counterexample: a `CacheError` on the cache read of the batch's first
unit makes `PDFParser._process_batch` return that error — the batch is
aborted, the erroring unit is *not* degraded to a miss and not placed in the
pending set, contrary to the claim. -/
theorem claim_C3_counterexample :
    process_batch
      (fun k => if k = "doc_page_1"
        then .error "Failed to read cache: boom" else .ok none)
      (fun _ _ => .ok ()) Nat.repr (fun _ => "x") "doc" [10, 20] [1, 2]
      = .error "Failed to read cache: boom" := by
  decide

/-- C3 (amended): `PDFParser._get_cached_pages` wraps no exception handler
around `cache_get`, so a `CacheError` on any unit's cache read propagates
and aborts the whole batch; only a unit whose read succeeds with an absent
entry is treated as a miss and placed in the pending set (read successes
with a payload become hits), and a failing `cache_set` during extraction is
likewise surfaced as an error. -/
theorem claim_C3_cache_error_propagation {Img : Type}
    (getC : String → Except CacheErr (Option Payload))
    (setC : String → Payload → Except CacheErr Unit)
    (extract_one : Img → String) (extract_many : List Img → String) (stem : String) :
    (∀ (zs : List (Img × Nat)) (i : Nat),
      (∃ u ∈ zs, ∃ e, getC (cache_key stem u.2) = .error e) →
      ∃ e, get_cached_pages getC stem zs i = .error e) ∧
    (∀ (zs : List (Img × Nat)) (i : Nat),
      (∀ u ∈ zs, ∃ ov, getC (cache_key stem u.2) = .ok ov) →
      ∃ cs ps, get_cached_pages getC stem zs i = .ok (cs, ps) ∧
        ps.map (fun t => (t.2.1, t.2.2))
          = zs.filter (fun u => getC (cache_key stem u.2) == .ok none)) ∧
    (∀ (e : CacheErr) (pending : List (Nat × Img × Nat)), pending ≠ [] →
      (∀ k v, setC k v = .error e) →
      process_uncached_pages setC extract_one extract_many stem pending
        = .error e) := by
  refine ⟨?_, ?_, ?_⟩
  · intro zs
    induction zs with
    | nil =>
      intro i h
      rcases h with ⟨u, hu, _⟩
      exact absurd hu (List.not_mem_nil u)
    | cons z rest ih =>
      obtain ⟨im, pn⟩ := z
      intro i h
      cases hg : getC (cache_key stem pn) with
      | error e => exact ⟨e, by rw [get_cached_pages, hg]⟩
      | ok v =>
        rcases h with ⟨u, hu, e, he⟩
        rcases List.mem_cons.mp hu with rfl | hur
        · rw [hg] at he
          exact absurd he (by simp)
        · rcases ih (i + 1) ⟨u, hur, e, he⟩ with ⟨e', he'⟩
          refine ⟨e', ?_⟩
          rw [get_cached_pages, hg, he']
  · intro zs
    induction zs with
    | nil => exact fun i h => ⟨[], [], rfl, rfl⟩
    | cons z rest ih =>
      obtain ⟨im, pn⟩ := z
      intro i h
      obtain ⟨ov, hov⟩ := h (im, pn) (List.mem_cons_self _ _)
      obtain ⟨cs, ps, hrec, hps⟩ := ih (i + 1) (fun u hu => h u (List.mem_cons_of_mem _ hu))
      cases ov with
      | some payload =>
        refine ⟨(i, payload.content) :: cs, ps, ?_, ?_⟩
        · rw [get_cached_pages, hov, hrec]
        · simp [List.filter_cons, hov, hps]
      | none =>
        refine ⟨cs, (i, im, pn) :: ps, ?_, ?_⟩
        · rw [get_cached_pages, hov, hrec]
        · simp [List.filter_cons, hov, hps]
  · intro e pending hne hset
    match pending with
    | [] => exact absurd rfl hne
    | [(i, im, pn)] =>
      rw [process_uncached_pages]
      rw [hset]
    | x :: y :: rest =>
      rw [process_uncached_pages]
      have hw : write_all setC stem
          (extract_many ((x :: y :: rest).map (fun t => t.2.1))) (x :: y :: rest)
          = .error e := by
        obtain ⟨i, im, pn⟩ := x
        rw [write_all, hset]
      rw [hw]

/-- C3 witness: the three amended behaviours at concrete inputs — a failing
read aborts, successful reads classify exactly the absent keys as pending,
and a failing write surfaces. -/
theorem claim_C3_cache_error_propagation_witness :
    (∃ e, get_cached_pages
      (fun k => if k = "doc_page_1" then .error "boom" else .ok none) "doc"
      [((10 : Nat), 1)] 0 = .error e) ∧
    (∃ cs ps,
      get_cached_pages (fun _ => .ok none) "doc" [((10 : Nat), 1), (20, 2)] 0
        = .ok (cs, ps) ∧
      ps.map (fun t => (t.2.1, t.2.2))
        = [((10 : Nat), 1), (20, 2)].filter
            (fun u => ((fun _ => (.ok none : Except CacheErr (Option Payload)))
              (cache_key "doc" u.2) == .ok none))) ∧
    process_uncached_pages (fun _ _ => .error "werr") Nat.repr (fun _ => "x") "doc"
      [((0 : Nat), (10 : Nat), (1 : Nat))] = .error "werr" :=
  ⟨(claim_C3_cache_error_propagation
      (fun k => if k = "doc_page_1" then .error "boom" else .ok none)
      (fun _ _ => .ok ()) Nat.repr (fun _ => "x") "doc").1
      [((10 : Nat), 1)] 0 ⟨(10, 1), by decide, "boom", by decide⟩,
   (claim_C3_cache_error_propagation (fun _ => .ok none)
      (fun _ _ => .ok ()) Nat.repr (fun _ => "x") "doc").2.1
      [((10 : Nat), 1), (20, 2)] 0 (fun u hu => ⟨none, rfl⟩),
   (claim_C3_cache_error_propagation (fun _ => .ok none)
      (fun _ _ => .error "werr") Nat.repr (fun _ => "x") "doc").2.2
      "werr" [((0 : Nat), (10 : Nat), (1 : Nat))] (by decide) (fun _ _ => rfl)⟩

/-- C5: `PDFParser._combine_results` joins the per-unit contents with a
double-newline separator and collapses consecutive blank lines: on the
spec's example it returns exactly the expected string, its output never
contains two adjacent blank lines (so at most one blank line separates two
non-blank lines), and a single unit whose content already has no duplicate
and no leading blank line passes through unchanged (intentional single
internal blank lines are preserved). -/
theorem claim_C5_assembler :
    combine_results ["Line 1", "", "Line 2", "", "", "Line 3"]
        = "Line 1\n\nLine 2\n\nLine 3" ∧
    (∀ results : List String, no_double_blank (combined_lines results) = true) ∧
    (∀ u : String, no_double_blank (splitNl u.data) = true →
      head_not_blank (splitNl u.data) = true → combine_results [u] = u) := by
  refine ⟨by decide, fun results => (clean_lines_spec _ true).2, fun u h1 h2 => ?_⟩
  show (⟨joinSep ['\n'] (clean_lines true (splitNl (joinSep ['\n', '\n'] [u.data])))⟩ : String) = u
  have hj : joinSep ['\n', '\n'] [u.data] = u.data := rfl
  rw [hj, clean_lines_id _ true h1 (fun _ => h2), joinSep_splitNl]

/-- C5 witness: a unit with one intentional internal blank line is left
untouched by the assembler. -/
theorem claim_C5_assembler_witness :
    no_double_blank (splitNl ("Alpha\n\nBeta").data) = true ∧
    combine_results ["Alpha\n\nBeta"] = "Alpha\n\nBeta" :=
  ⟨by decide, claim_C5_assembler.2.2 "Alpha\n\nBeta" (by decide) (by decide)⟩

/-- C8: for `N` page images and `batch_size = B ≥ 1`, the partitioning loop
of `PDFParser._process_pages` yields `ceil(N/B)` batches, each of exactly `B`
units except possibly the last (and none larger than `B`), preserving the
original order: concatenating the batches restores the image list, and
concatenating their page-number lists gives `1..N` in order — so the batch
of the unit at zero-based position `j` carries page number `j + 1`, and on
the index list `[0, N)` the concatenation reproduces `[0, N)` itself.  The
partition is a function of the input list and `B` alone, hence
deterministic. -/
theorem claim_C8_partitioning {Img : Type} (B : Nat) (hB : 1 ≤ B) (xs : List Img) :
    (create_batches B 0 xs).length = (xs.length + B - 1) / B ∧
    (∀ bp ∈ (create_batches B 0 xs).dropLast, bp.1.length = B) ∧
    (∀ bp ∈ create_batches B 0 xs, bp.1.length ≤ B) ∧
    ((create_batches B 0 xs).map (·.1)).flatten = xs ∧
    ((create_batches B 0 xs).map (·.2)).flatten = List.range' 1 xs.length ∧
    (∀ N : Nat, ((create_batches B 0 (List.range N)).map (·.1)).flatten = List.range N) := by
  obtain ⟨B', rfl⟩ : ∃ B', B = B' + 1 := ⟨B - 1, by omega⟩
  refine ⟨create_batches_go_length B' xs.length xs 0 le_rfl,
    create_batches_go_dropLast B' xs.length xs 0 le_rfl,
    fun bp hbp => (create_batches_go_sizes B' xs.length xs 0 le_rfl bp hbp).1,
    create_batches_go_flatten_fst B' xs.length xs 0 le_rfl,
    create_batches_go_flatten_snd B' xs.length xs 0 le_rfl,
    fun N => create_batches_go_flatten_fst B' (List.range N).length (List.range N) 0 le_rfl⟩

/-- C8 witness: three images in batches of two give two batches, `[10, 20]`
and `[30]`, which concatenate back to the input. -/
theorem claim_C8_partitioning_witness :
    (create_batches 2 0 [10, 20, 30]).length = 2 ∧
    ((create_batches 2 0 [10, 20, 30]).map (·.1)).flatten = [10, 20, 30] :=
  ⟨(claim_C8_partitioning 2 (by decide) [10, 20, 30]).1,
   (claim_C8_partitioning 2 (by decide) [10, 20, 30]).2.2.2.1⟩

/-- C4: the cache key is derived from the filename stem and the *position*
of the page inside the converted image list, not from the document's page
number: on a 5-page document `doc`, a run restricted to `page_range = (2,3)`
rasterizes document pages 2 and 3 but numbers them `1` and `2`, so document
page 2 is cached under `"doc_page_1"`, whereas an unrestricted run caches it
under `"doc_page_2"` — the same document page maps to different keys in
different runs (and the restricted run's key collides with document page 1's
key), contradicting the claimed run-independence of the key. -/
theorem claim_C4_page_range_key :
    (pdf_to_images 5 (some (2, 3))).zip
        (run_keys "doc" 1 (pdf_to_images 5 (some (2, 3))))
      = [(2, "doc_page_1"), (3, "doc_page_2")] ∧
    (pdf_to_images 5 none).zip (run_keys "doc" 1 (pdf_to_images 5 none))
      = [(1, "doc_page_1"), (2, "doc_page_2"), (3, "doc_page_3"),
         (4, "doc_page_4"), (5, "doc_page_5")] ∧
    ("doc_page_1" : String) ≠ "doc_page_2" := by
  refine ⟨by decide, by decide, by decide⟩

/-- C10: `BaseParser.parse` restores `settings.output_format` to its pre-call
value after the call completes — the `finally:` block runs both when the body
returns and when it raises — and leaves every other settings field unchanged;
the `output_format` argument overrides the setting only for the duration of
the body. -/
theorem claim_C10_parse_settings_frame {E R : Type} (s : PySettings)
    (ofmt : Option String) (body : PySettings → Except E R) :
    (base_parser_parse s ofmt body).2 = s ∧
    (base_parser_parse s ofmt body).1 =
      body (match ofmt with
            | some f => { s with output_format := f }
            | none => s) := by
  obtain ⟨f0, uc, pp, mn, bs, mw⟩ := s
  cases ofmt with
  | none => cases h : body _ <;> simp [base_parser_parse, h]
  | some g => cases h : body _ <;> simp [base_parser_parse, h]

/-- C6 counterexample: at a concrete input, the metadata returned by
`PDFParser._parse` has exactly the keys `filename`, `size`, `modified`,
`parser`, `pages`, `dpi` and `model` — neither the batch size nor the
concurrency ceiling (`max_workers`) is echoed back, contrary to the claim. -/
theorem claim_C6_counterexample :
    (pdf_parse_metadata "doc.pdf" 2048 "2024-01-01T00:00:00" 3 300 "gpt-4o").map Prod.fst
      = ["filename", "size", "modified", "parser", "pages", "dpi", "model"] ∧
    (pdf_parse_metadata "doc.pdf" 2048 "2024-01-01T00:00:00" 3 300 "gpt-4o").lookup
      "batch_size" = none ∧
    (pdf_parse_metadata "doc.pdf" 2048 "2024-01-01T00:00:00" 3 300 "gpt-4o").lookup
      "max_workers" = none ∧
    (pdf_parse_metadata "doc.pdf" 2048 "2024-01-01T00:00:00" 3 300 "gpt-4o").lookup
      "max_concurrent" = none := by
  exact ⟨rfl, rfl, rfl, rfl⟩

/-- C6 (amended): the metadata of a successful `PDFParser._parse` run
contains the unit count (key `"pages"`), the image resolution (`"dpi"`) and
the model name (`"model"`), but not the batch size or the concurrency
ceiling. -/
theorem claim_C6_metadata (filename : String) (size : Nat) (modified : String)
    (pages dpi : Nat) (model : String) :
    (pdf_parse_metadata filename size modified pages dpi model).lookup "pages"
      = some (.num pages) ∧
    (pdf_parse_metadata filename size modified pages dpi model).lookup "dpi"
      = some (.num dpi) ∧
    (pdf_parse_metadata filename size modified pages dpi model).lookup "model"
      = some (.str model) ∧
    (pdf_parse_metadata filename size modified pages dpi model).lookup "batch_size"
      = none ∧
    (pdf_parse_metadata filename size modified pages dpi model).lookup "max_workers"
      = none := by
  exact ⟨rfl, rfl, rfl, rfl, rfl⟩

/-- C7: after `CacheManager.set` writes an entry at time `T` with a
(nonzero) TTL `d` configured, `get` at a time when the entry's age exceeds
`d` deletes both the entry and its metadata and returns `None`, while `get`
within the TTL returns the stored payload and leaves the state unchanged. -/
theorem claim_C7_cache_ttl {V : Type} (st : CMState V) (key : String) (v : V)
    (d T now : Nat) (hd : 0 < d) :
    (d < now - T →
      cm_get (some d) now (cm_set st T key v) key
        = (none, cm_delete (cm_set st T key v) key) ∧
      (cm_delete (cm_set st T key v) key).entries.lookup key = none ∧
      (cm_delete (cm_set st T key v) key).metas.lookup key = none) ∧
    (now - T ≤ d →
      cm_get (some d) now (cm_set st T key v) key = (some v, cm_set st T key v)) := by
  constructor
  · intro h
    refine ⟨?_, lookup_filter_ne key _, lookup_filter_ne key _⟩
    simp [cm_get, cm_set, List.lookup, if_pos (And.intro hd h)]
  · intro h
    have hcond : ¬ (0 < d ∧ d < now - T) := by omega
    simp [cm_get, cm_set, List.lookup, if_neg hcond]

/-- C7 witness: a payload written at time 0 with TTL 10 is gone (and its
files deleted) at time 20 and still returned at time 5. -/
theorem claim_C7_cache_ttl_witness :
    cm_get (some 10) 20 (cm_set (⟨[], []⟩ : CMState Nat) 0 "k" 7) "k"
      = (none, cm_delete (cm_set (⟨[], []⟩ : CMState Nat) 0 "k" 7) "k") ∧
    cm_get (some 10) 5 (cm_set (⟨[], []⟩ : CMState Nat) 0 "k" 7) "k"
      = (some 7, cm_set (⟨[], []⟩ : CMState Nat) 0 "k" 7) :=
  ⟨((claim_C7_cache_ttl (⟨[], []⟩ : CMState Nat) "k" 7 10 0 20 (by decide)).1
      (by decide)).1,
   (claim_C7_cache_ttl (⟨[], []⟩ : CMState Nat) "k" 7 10 0 5 (by decide)).2
      (by decide)⟩

/-- C9: in every scheduler interleaving starting from `K` permits and `n`
waiting batch tasks, the semaphore value plus the number of tasks inside the
limiter-guarded region stays `K` — each permit acquired on entry is given
back on every exit path, the raising one included — so at no point are more
than `K` batch bodies executing simultaneously. -/
theorem claim_C9_limiter_bound (K n : Nat) (s : Nat × List TStat)
    (h : Relation.ReflTransGen LimStep (K, List.replicate n TStat.waiting) s) :
    s.1 + count_running s.2 = K ∧ count_running s.2 ≤ K := by
  have hinv := limiter_invariant K _ s h
    (by simp [count_running_replicate_waiting])
  exact ⟨hinv, by omega⟩

/-- C9 witness: with one permit and one task, the trace
acquire-then-raise-and-release ends with the permit back and nobody
running. -/
theorem claim_C9_limiter_bound_witness :
    (1 : Nat) + count_running [TStat.doneErr] = 1 ∧ count_running [TStat.doneErr] ≤ 1 :=
  claim_C9_limiter_bound 1 1 (1, [TStat.doneErr])
    (Relation.ReflTransGen.tail
      (Relation.ReflTransGen.tail Relation.ReflTransGen.refl (LimStep.acquire 0 [] []))
      (LimStep.finishErr 0 [] []))

end DocParser
